import Mathlib

/-!
Verification development for the nixclaw Tool Authorization & Approval
Subsystem: the command sandbox (src/tools/observe/safe-exec.ts), the
policy engine (src/core/tool-policy.ts), the approval store
(src/core/approval.ts) and the HTTP approval surface.

Strings are modelled at the boundary as Lean `String`; the sandbox's
output manipulation works on `List Char` (the sequence of code units of
a JS string, restricted to ASCII inputs). Regular expressions from
BLOCKED_PATTERNS are embedded as decidable matchers on `List Char`.
-/

namespace NixClaw

/-- The characters of a string literal. -/
def strL (s : String) : List Char := s.data

/-- JS regex word character class: [A-Za-z0-9_]. -/
def isWordChar (c : Char) : Bool :=
  (c.isAlpha || c.isDigit) || c = '_'

/-- ASCII fragment of the JS regex whitespace class. -/
def isSpaceChar (c : Char) : Bool :=
  c = ' ' || c = Char.ofNat 9 || c = Char.ofNat 10 || c = Char.ofNat 11 ||
  c = Char.ofNat 12 || c = Char.ofNat 13

/-- The backtick character, U+0060. -/
def backquoteChar : Char := Char.ofNat 96

/-- The opening brace character, U+007B. -/
def openBraceChar : Char := Char.ofNat 123

/-- Pattern p begins the character list s. -/
def isPrefixL : List Char → List Char → Bool
  | [], _ => true
  | _ :: _, [] => false
  | p :: ps, c :: cs => p = c && isPrefixL ps cs

/-- Pattern p occurs somewhere (as a contiguous run) inside s. -/
def containsSub (p : List Char) : List Char → Bool
  | [] => isPrefixL p []
  | c :: cs => isPrefixL p (c :: cs) || containsSub p cs

/-- The next position is a word boundary: end of string or a non-word
character. -/
def boundaryOk : List Char → Bool
  | [] => true
  | c :: _ => !isWordChar c

/-- An occurrence of p followed by a word boundary exists in s
(JS regex p\b where p ends in a word character). -/
def containsSubBoundary (p : List Char) : List Char → Bool
  | [] => isPrefixL p [] && boundaryOk []
  | c :: cs =>
      (isPrefixL p (c :: cs) && boundaryOk ((c :: cs).drop p.length)) ||
      containsSubBoundary p cs

/-- An occurrence of p as a whole word — a word boundary on both
sides (JS regex \bp\b where p starts and ends in word characters).
The first argument tracks whether the previous character was a word
character (false at the start of the string). -/
def containsWordAux (p : List Char) (prevIsWord : Bool) : List Char → Bool
  | [] => !prevIsWord && isPrefixL p [] && boundaryOk []
  | c :: cs =>
      (!prevIsWord && isPrefixL p (c :: cs) && boundaryOk ((c :: cs).drop p.length)) ||
      containsWordAux p (isWordChar c) cs

def containsWord (p : List Char) (s : List Char) : Bool :=
  containsWordAux p false s

/-- JS regex />\s*[^\s]/ — a greater-than sign, optional whitespace,
then a non-whitespace character. -/
def matchesRedirectOut : List Char → Bool
  | [] => false
  | c :: cs =>
      (c = '>' && !(cs.dropWhile isSpaceChar).isEmpty) || matchesRedirectOut cs

/-- JS regex /nixos-rebuild\s+(switch|boot|test)/ — the literal
nixos-rebuild, one or more whitespace characters, then one of the
activation subcommands. The alternatives begin with non-whitespace
characters, so the regex matches exactly when all the consecutive
whitespace after the literal is consumed. -/
def matchesNixosRebuildActivate : List Char → Bool
  | [] => false
  | c :: cs =>
      (isPrefixL (strL "nixos-rebuild") (c :: cs) &&
        (match (c :: cs).drop (strL "nixos-rebuild").length with
         | [] => false
         | d :: ds =>
           isSpaceChar d &&
             (let rest := ds.dropWhile isSpaceChar
              isPrefixL (strL "switch") rest || isPrefixL (strL "boot") rest ||
                isPrefixL (strL "test") rest))) ||
      matchesNixosRebuildActivate cs

/-- ALLOWED_COMMANDS from src/tools/observe/safe-exec.ts. -/
def ALLOWED_COMMANDS : List String :=
  ["ps", "pgrep", "pidof",
   "free", "df", "du", "lsblk", "lscpu", "lsmem",
   "ss", "ip",
   "systemctl", "journalctl",
   "ls", "cat", "head", "tail", "wc", "file", "stat", "find", "realpath",
   "uptime", "hostname", "uname", "who", "w", "last", "date",
   "nix", "nix-store", "nixos-option", "nixos-version", "nixos-rebuild",
   "git",
   "sensors", "lsusb", "lspci"]

/-- BLOCKED_PATTERNS from src/tools/observe/safe-exec.ts, each JS regex
embedded as a decidable matcher, in source order: the shell
metacharacter class [;&|backtick]; command substitution dollar-paren;
variable substitution dollar-brace; output redirection (the
matchesRedirectOut regex); the literals "--delete", "--force", "--hard",
"--no-verify" and "nix-collect-garbage"; "-rf" and "-exec" each followed
by a word boundary; the nixos-rebuild activation regex; and "push" as a
whole word. -/
def BLOCKED_PATTERNS : List (List Char → Bool) :=
  [fun s => s.any (fun c => c = ';' || c = '&' || c = '|' || c = backquoteChar),
   containsSub (strL "$("),
   containsSub ['$', openBraceChar],
   matchesRedirectOut,
   containsSub (strL "--delete"),
   containsSub (strL "--force"),
   containsSubBoundary (strL "-rf"),
   containsSub (strL "--hard"),
   containsSub (strL "--no-verify"),
   containsSubBoundary (strL "-exec"),
   matchesNixosRebuildActivate,
   containsSub (strL "nix-collect-garbage"),
   containsWord (strL "push")]

/-- The space-join of the argument vector: args.join(" "). -/
def joinArgs (args : List String) : List Char :=
  (String.intercalate " " args).data

/-- isCommandAllowed from src/tools/observe/safe-exec.ts: the command
must sit in the allowlist, and no blocked pattern may match the joined
argument string. -/
def isCommandAllowed (command : String) (args : List String) : Bool :=
  ALLOWED_COMMANDS.contains command &&
    !(BLOCKED_PATTERNS.any (fun p => p (joinArgs args)))

/-- The outcome of the promisified execFile call in safeExec: either the
promise resolves with captured stdout and stderr, or it rejects (non-zero
exit, spawn error, or timeout) with an error carrying a message and
optional partial stdout and stderr. The subprocess itself is outside the
embedding, so the outcome is an input. -/
inductive ExecOutcome where
  | success (stdout stderr : List Char)
  | failure (message : List Char) (stdout stderr : Option (List Char))
deriving DecidableEq

/-- What a safeExec call produces: the returned text and whether a
subprocess was spawned on the way. -/
structure SafeExecResult where
  output : List Char
  spawned : Bool
deriving DecidableEq

/-- JS String.prototype.trim: strip whitespace from both ends. -/
def trimL (s : List Char) : List Char :=
  ((s.dropWhile isSpaceChar).reverse.dropWhile isSpaceChar).reverse

/-- The truncation notice appended by safeExec when output exceeds
maxBytes. -/
def truncNotice (maxBytes : Nat) : List Char :=
  strL ("\n... (truncated at " ++ toString maxBytes ++ " bytes)")

/-- The truncation step of safeExec: output beyond maxBytes is cut and
the notice appended. -/
def capOutput (maxBytes : Nat) (output : List Char) : List Char :=
  if maxBytes < output.length then
    output.take maxBytes ++ truncNotice maxBytes
  else output

/-- safeExec from src/tools/observe/safe-exec.ts (maxBytes defaults to
10240 at the call sites). A disallowed command short-circuits to the
BLOCKED sentinel without consulting the outcome — no subprocess runs.
An allowed command spawns the subprocess; on success stdout and a
tagged stderr are concatenated and truncated to maxBytes with a notice;
on rejection the error message and any partial output are rendered and
trimmed. Every branch returns text — the function never throws. -/
def safeExec (command : String) (args : List String) (maxBytes : Nat)
    (outcome : ExecOutcome) : SafeExecResult :=
  if !isCommandAllowed command args then
    { output := strL ("BLOCKED: Command \"" ++ command ++ " " ++
        String.intercalate " " args ++ "\" is not permitted."),
      spawned := false }
  else
    match outcome with
    | .success stdout stderr =>
        let output := stdout ++
          (if stderr.isEmpty then [] else strL "\nSTDERR: " ++ stderr)
        { output := capOutput maxBytes output, spawned := true }
    | .failure msg so se =>
        { output := trimL (strL "Error: " ++ msg ++ ['\n'] ++ so.getD [] ++
            ['\n'] ++ se.getD []),
          spawned := true }

/-- PolicyDecision from src/core/tool-policy.ts. -/
inductive PolicyDecision where
  | allow
  | deny
  | approve
deriving DecidableEq

/-- ToolPolicy from src/core/tool-policy.ts: tool name or "*" wildcard,
an effect, and optional channel and user restriction sets. -/
structure ToolPolicy where
  tool : String
  effect : PolicyDecision
  channels : Option (List String)
  users : Option (List String)
deriving DecidableEq

/-- evaluatePolicy from src/core/tool-policy.ts: walk the rules in
order; skip a rule whose tool matcher is neither the wildcard nor the
tool name, whose channel set is present but misses the channel, or
whose user set is present but misses the sender; return the effect of
the first rule not skipped; return allow when the list is exhausted. -/
def evaluatePolicy (policies : List ToolPolicy)
    (toolName channel sender : String) : PolicyDecision :=
  match policies with
  | [] => .allow
  | policy :: rest =>
    if policy.tool != "*" && policy.tool != toolName then
      evaluatePolicy rest toolName channel sender
    else if (match policy.channels with
             | some cs => !cs.contains channel
             | none => false) then
      evaluatePolicy rest toolName channel sender
    else if (match policy.users with
             | some us => !us.contains sender
             | none => false) then
      evaluatePolicy rest toolName channel sender
    else policy.effect

/-- The spec's reading of when a rule matches: the tool matcher is the
wildcard or equals the tool name, the rule has no channel set or the
channel is a member, and it has no user set or the sender is a member. -/
def ruleMatches (policy : ToolPolicy) (toolName channel sender : String) : Bool :=
  (policy.tool == "*" || policy.tool == toolName) &&
  (match policy.channels with
   | none => true
   | some cs => cs.contains channel) &&
  (match policy.users with
   | none => true
   | some us => us.contains sender)

/-- The status union of ApprovalRequest in src/core/approval.ts. -/
inductive ApprovalStatus where
  | pending
  | allow
  | deny
  | expired
deriving DecidableEq

/-- ApprovalRequest from src/core/approval.ts. Timestamps are JS epoch
milliseconds, modelled as integers. -/
structure ApprovalRequest where
  id : String
  tool : String
  input : String
  session : String
  requester : String
  status : ApprovalStatus
  createdAt : Int
deriving DecidableEq

/-- The decision argument of ApprovalStore.decide: allow or deny. -/
inductive Decision where
  | allow
  | deny
deriving DecidableEq

def Decision.toStatus : Decision → ApprovalStatus
  | .allow => .allow
  | .deny => .deny

/-- The "approvals" namespace of the durable StateStore as
ApprovalStore uses it: one JSON record per request id, plus the list of
pending ids under the reserved key "_pending_index". Request ids are
eight leading characters of a UUID (hexadecimal digits), so they never
collide with the reserved key and the two kinds of entry are modelled
as separate fields. -/
structure ApprovalState where
  records : String → Option ApprovalRequest
  pendingIndex : List String

/-- The store before any operation: no records, empty pending index
(getJSON of a missing key yields absent, which the code defaults
to the empty list). -/
def emptyApprovalState : ApprovalState :=
  { records := fun _ => none, pendingIndex := [] }

namespace ApprovalStore

/-- requestApproval from src/core/approval.ts: persist a record with
status pending and the current timestamp under the minted id, append
the id to the pending index, and return the id. The minted id
(randomUUID().slice(0, 8)) and the clock reading (Date.now()) come from
outside the embedding and are passed in. -/
def requestApproval (s : ApprovalState) (id : String) (now : Int)
    (tool inp session requester : String) : ApprovalState × String :=
  let approval : ApprovalRequest :=
    { id := id, tool := tool, input := inp, session := session,
      requester := requester, status := .pending, createdAt := now }
  ({ records := fun k => if k = id then some approval else s.records k,
     pendingIndex := s.pendingIndex ++ [id] }, id)

/-- get from src/core/approval.ts. -/
def get (s : ApprovalState) (id : String) : Option ApprovalRequest :=
  s.records id

/-- decide from src/core/approval.ts: load the record; a missing or
non-pending record makes the call a no-op; otherwise store the record
with the decided status and drop the id from the pending index. -/
def decide (s : ApprovalState) (id : String) (d : Decision) : ApprovalState :=
  match s.records id with
  | none => s
  | some req =>
    if req.status != .pending then s
    else
      { records := fun k =>
          if k = id then some { req with status := d.toStatus }
          else s.records k,
        pendingIndex := s.pendingIndex.filter (fun i => i != id) }

/-- listPending from src/core/approval.ts: resolve the pending index
through the record store, silently dropping ids whose record is missing
or no longer pending (the map-then-filter of the source, fused into a
filterMap). -/
def listPending (s : ApprovalState) : List ApprovalRequest :=
  s.pendingIndex.filterMap (fun id =>
    match s.records id with
    | some r => if r.status = .pending then some r else none
    | none => none)

end ApprovalStore

/-- The per-id test of the expireOlderThan sweep: the record exists, is
still pending, and now - createdAt >= maxAgeMs (JS number arithmetic on
epoch milliseconds, modelled in Int so that a record created after now
is not swept). -/
def shouldExpire (s : ApprovalState) (maxAgeMs now : Int) (id : String) : Bool :=
  match s.records id with
  | some r => r.status == .pending && decide (maxAgeMs ≤ now - r.createdAt)
  | none => false

/-- expireOlderThan from src/core/approval.ts: walk the pending index;
every indexed id whose record is pending and old enough is stored back
with status expired and collected; the collected ids are then removed
from the index in one write. Records whose id is not in the index are
untouched. Updates inside the walk only affect later iterations when
the index holds a duplicate id, and then the second pass skips the
already-expired record, leaving the same final store as this one-pass
form. -/
def ApprovalStore.expireOlderThan (s : ApprovalState) (maxAgeMs now : Int) :
    ApprovalState :=
  { records := fun id =>
      if s.pendingIndex.contains id && shouldExpire s maxAgeMs now id then
        match s.records id with
        | some r => some { r with status := .expired }
        | none => s.records id
      else s.records id,
    pendingIndex := s.pendingIndex.filter (fun id => !shouldExpire s maxAgeMs now id) }

/-- One client-visible operation on the approval store, with the oracle
inputs (minted id, clock reading) it consumes. -/
inductive ApprovalOp where
  | request (id : String) (now : Int) (tool inp session requester : String)
  | decideOn (id : String) (d : Decision)
  | expire (maxAgeMs now : Int)

def applyOp (s : ApprovalState) : ApprovalOp → ApprovalState
  | .request id now tool inp session requester =>
      (ApprovalStore.requestApproval s id now tool inp session requester).1
  | .decideOn id d => ApprovalStore.decide s id d
  | .expire maxAgeMs now => ApprovalStore.expireOlderThan s maxAgeMs now

/-- The store reached from the empty store by a finite operation
sequence. -/
def runOps (ops : List ApprovalOp) : ApprovalState :=
  ops.foldl applyOp emptyApprovalState

/-- The ids the randomUUID oracle handed to the requestApproval calls
of an operation sequence — which are exactly the ids those calls
returned, since requestApproval returns its minted id. -/
def mintedIds : List ApprovalOp → List String
  | [] => []
  | .request id _ _ _ _ _ :: rest => id :: mintedIds rest
  | .decideOn _ _ :: rest => mintedIds rest
  | .expire _ _ :: rest => mintedIds rest

/-- The §3 pending-index invariant: an id sits in the index exactly
when its backing record is pending, and every record is stored under
its own id. -/
def PendingInv (s : ApprovalState) : Prop :=
  (∀ id, id ∈ s.pendingIndex ↔
    ∃ r, s.records id = some r ∧ r.status = .pending) ∧
  (∀ id r, s.records id = some r → r.id = id)

/-- Modelled from the spec: the three approval HTTP endpoints of §6.
Their handler registrations are missing from src — the shipped
src/channels/webui/routes.ts carries only the health, chat, stream and
dashboard routes, while scripts/nixclaw-hook.sh and the telegram
decision handler call the endpoints as clients. A request to the
approval surface, with the oracle inputs the create endpoint consumes. -/
inductive ApprovalHttpRequest where
  | createApproval (tool inp session requester : String) (id : String) (now : Int)
  | getApproval (id : String)
  | decideApproval (id : String) (d : Decision)

/-- Modelled from the spec: the §6 response bodies — the created id,
the record's fields for a known id, an explicit not-found condition for
an unknown id, and a bare acknowledgement for a decision submission. -/
inductive ApprovalHttpResponse where
  | created (id : String)
  | found (id : String) (status : ApprovalStatus)
      (tool inp session requester : String) (createdAt : Int)
  | notFound
  | ack
deriving DecidableEq

/-- Modelled from the spec: the approval endpoint handlers over the
approval store — POST api approve creates a request and answers its id,
GET api approve id answers the record's fields or not-found, and POST
api approve id decide submits the decision. -/
def handleApproval (s : ApprovalState) :
    ApprovalHttpRequest → ApprovalState × ApprovalHttpResponse
  | .createApproval tool inp session requester id now =>
      let res := ApprovalStore.requestApproval s id now tool inp session requester
      (res.1, .created res.2)
  | .getApproval id =>
      match ApprovalStore.get s id with
      | none => (s, .notFound)
      | some r =>
          (s, .found r.id r.status r.tool r.input r.session r.requester
            r.createdAt)
  | .decideApproval id d => (ApprovalStore.decide s id d, .ack)

end NixClaw

namespace NixClaw

example : isCommandAllowed "ps" ["aux"] = true := by decide
example : isCommandAllowed "free" ["-h"] = true := by decide
example : isCommandAllowed "hostname" [] = true := by decide
example : isCommandAllowed "rm" ["-rf", "/"] = false := by decide
example : isCommandAllowed "dd" ["if=/dev/zero"] = false := by decide
example : isCommandAllowed "sudo" ["anything"] = false := by decide
example : isCommandAllowed "ls" ["; rm -rf /"] = false := by decide
example : isCommandAllowed "cat" ["$(whoami)"] = false := by decide
example : isCommandAllowed "find" ["-exec", "rm"] = false := by decide
example : isCommandAllowed "git" ["push", "origin"] = false := by decide
example : isCommandAllowed "git" ["log"] = true := by decide
example : isCommandAllowed "nixos-rebuild" ["switch"] = true := by decide
example : matchesNixosRebuildActivate (strL "nixos-rebuild  switch") = true := by decide
example : matchesNixosRebuildActivate (strL "nixos-rebuild x switch") = false := by decide
example : matchesRedirectOut (strL "a >  b") = true := by decide
example : matchesRedirectOut (strL "a > ") = false := by decide
example : containsWord (strL "push") (strL "pushd") = false := by decide
example : containsWord (strL "push") (strL "a push b") = true := by decide
example : containsSubBoundary (strL "-rf") (strL "x -rfy") = false := by decide
example : containsSubBoundary (strL "-rf") (strL "x -rf y") = true := by decide

/-- A pattern that begins a list still begins any right-extension of it. -/
theorem isPrefixL_append (p l m : List Char) (h : isPrefixL p l = true) :
    isPrefixL p (l ++ m) = true := by
  induction p generalizing l with
  | nil => simp [isPrefixL]
  | cons c cs ih =>
    cases l with
    | nil => simp [isPrefixL] at h
    | cons d ds =>
      simp only [isPrefixL, Bool.and_eq_true] at h
      simp only [List.cons_append, isPrefixL, Bool.and_eq_true]
      exact ⟨h.1, ih ds h.2⟩

/-- C1: isCommandAllowed returns true exactly when the command is in the
static allowlist and no blocked pattern matches the space-joined
arguments; hence a command outside the allowlist is rejected whatever
the arguments, and an allowlisted command is rejected whenever the
joined arguments match some blocked pattern. -/
theorem isCommandAllowed_iff_allowlist_and_patterns
    (command : String) (args : List String) :
    isCommandAllowed command args = true ↔
      (command ∈ ALLOWED_COMMANDS ∧
        ∀ p ∈ BLOCKED_PATTERNS, p (joinArgs args) = false) := by
  simp [isCommandAllowed, List.contains, Bool.not_eq_true', List.any_eq_false]

/-- C2: on a disallowed command, safeExec spawns no subprocess and its
result — the same for every possible execution outcome, since the
subprocess is never consulted — begins with the BLOCKED sentinel.
The function is total: no branch throws. -/
theorem safeExec_blocked_sentinel (command : String) (args : List String)
    (maxBytes : Nat) (outcome : ExecOutcome)
    (h : isCommandAllowed command args = false) :
    (safeExec command args maxBytes outcome).spawned = false ∧
    isPrefixL (strL "BLOCKED:") (safeExec command args maxBytes outcome).output
      = true := by
  constructor
  · simp [safeExec, h]
  · simp only [safeExec, h, Bool.not_false, if_true, strL, String.data_append]
    rw [List.append_assoc, List.append_assoc, List.append_assoc]
    exact isPrefixL_append _ _ _ (by decide)

theorem safeExec_blocked_sentinel_witness :
    (safeExec "rm" ["-rf", "/"] 10240 (.success [] [])).spawned = false ∧
    isPrefixL (strL "BLOCKED:")
      (safeExec "rm" ["-rf", "/"] 10240 (.success [] [])).output = true :=
  safeExec_blocked_sentinel "rm" ["-rf", "/"] 10240 (.success [] []) (by decide)

/-- C3 counterexample: the claim bounds the returned text by maxBytes
plus the truncation notice for every execution outcome, but the catch
branch of safeExec returns the error message plus the untruncated
partial output. At maxBytes 0, an allowed command ("ps aux") that fails
with 40 characters of partial stdout yields a longer result. -/
theorem safeExec_maxBytes_counterexample :
    ¬ ((safeExec "ps" ["aux"] 0
        (.failure (strL "Command failed")
          (some (strL "aaaaaaaaaaaaaaaaaaaaaaaaaaaaaaaaaaaaaaaa")) none)).output.length
      ≤ 0 + (truncNotice 0).length) := by decide

/-- C3 amended: when the command is allowed and the subprocess resolves
successfully, the returned text never exceeds maxBytes plus the
truncation notice length; the catch branch (non-zero exit, spawn error,
timeout) renders the error with its partial output untruncated and is
not subject to the bound. -/
theorem safeExec_success_output_bounded (command : String)
    (args : List String) (maxBytes : Nat) (stdout stderr : List Char)
    (h : isCommandAllowed command args = true) :
    (safeExec command args maxBytes (.success stdout stderr)).output.length
      ≤ maxBytes + (truncNotice maxBytes).length := by
  have hcap : ∀ out : List Char,
      (capOutput maxBytes out).length ≤ maxBytes + (truncNotice maxBytes).length := by
    intro out
    unfold capOutput
    split
    · simp only [List.length_append, List.length_take]
      omega
    · next hge => omega
  simp only [safeExec, h, Bool.not_true, Bool.false_eq_true, if_false]
  exact hcap _

theorem safeExec_success_output_bounded_witness :
    (safeExec "ps" ["aux"] 5 (.success (strL "aaaaaaaaaa") [])).output.length
      ≤ 5 + (truncNotice 5).length :=
  safeExec_success_output_bounded "ps" ["aux"] 5 (strL "aaaaaaaaaa") []
    (by decide)

/-- C10: nixos-rebuild with the argument switch (likewise boot or test)
passes isCommandAllowed: blocked patterns only see the space-join of the
arguments — here the string "switch" — never the command name, so the
activation pattern (which does match the full command line
"nixos-rebuild switch") can never fire, and safeExec goes on to spawn
the command. -/
theorem nixosRebuild_activation_not_blocked :
    isCommandAllowed "nixos-rebuild" ["switch"] = true ∧
    isCommandAllowed "nixos-rebuild" ["boot"] = true ∧
    isCommandAllowed "nixos-rebuild" ["test"] = true ∧
    matchesNixosRebuildActivate (joinArgs ["switch"]) = false ∧
    matchesNixosRebuildActivate (strL "nixos-rebuild switch") = true ∧
    (safeExec "nixos-rebuild" ["switch"] 10240
      (.success (strL "ok") [])).spawned = true := by decide

example : evaluatePolicy [] "nixclaw_processes" "telegram" "user1" = .allow := rfl
example : evaluatePolicy [⟨"nixclaw_query", .deny, some ["telegram"], none⟩]
    "nixclaw_query" "telegram" "user1" = .deny := rfl
example : evaluatePolicy [⟨"nixclaw_query", .deny, some ["telegram"], none⟩]
    "nixclaw_query" "webui" "user1" = .allow := rfl
example : evaluatePolicy [⟨"nixclaw_query", .approve, some ["telegram"], none⟩]
    "nixclaw_query" "telegram" "user1" = .approve := rfl
example : evaluatePolicy [⟨"*", .deny, some ["telegram"], some ["unknown-user"]⟩]
    "nixclaw_anything" "telegram" "unknown-user" = .deny := rfl
example : evaluatePolicy [⟨"*", .deny, some ["telegram"], some ["unknown-user"]⟩]
    "nixclaw_anything" "telegram" "owner" = .allow := rfl
example : evaluatePolicy
    [⟨"nixclaw_query", .allow, none, some ["owner"]⟩,
     ⟨"nixclaw_query", .deny, none, none⟩]
    "nixclaw_query" "terminal" "owner" = .allow := rfl
example : evaluatePolicy
    [⟨"nixclaw_query", .allow, none, some ["owner"]⟩,
     ⟨"nixclaw_query", .deny, none, none⟩]
    "nixclaw_query" "terminal" "someone-else" = .deny := rfl

/-- One step of evaluatePolicy: a cons either fires its head rule —
exactly when the spec's ruleMatches holds — or defers to the tail. -/
theorem evaluatePolicy_cons (policy : ToolPolicy) (rest : List ToolPolicy)
    (t c s : String) :
    evaluatePolicy (policy :: rest) t c s =
      if ruleMatches policy t c s then policy.effect
      else evaluatePolicy rest t c s := by
  rcases policy with ⟨tool, effect, channels, users⟩
  rcases channels with _ | cs <;> rcases users with _ | us <;>
    cases h1 : (tool == "*") <;> cases h2 : (tool == t) <;>
      (try cases h3 : cs.contains c) <;> (try cases h4 : us.contains s) <;>
      simp_all [evaluatePolicy, ruleMatches]

/-- C4: evaluatePolicy returns the effect of the first rule in list
order that matches — tool wildcard or equality, channel set absent or
containing the channel, user set absent or containing the sender — and
returns allow when no rule matches, in particular on the empty list. -/
theorem evaluatePolicy_first_match (rules : List ToolPolicy)
    (toolName channel sender : String) :
    (evaluatePolicy rules toolName channel sender =
      match rules.find? (fun p => ruleMatches p toolName channel sender) with
      | some p => p.effect
      | none => PolicyDecision.allow) ∧
    evaluatePolicy [] toolName channel sender = PolicyDecision.allow := by
  refine ⟨?_, rfl⟩
  induction rules with
  | nil => rfl
  | cons policy rest ih =>
    cases hm : ruleMatches policy toolName channel sender
    · rw [List.find?_cons_of_neg _ (by simp [hm]), evaluatePolicy_cons, hm]
      simpa using ih
    · rw [List.find?_cons_of_pos _ (by simp [hm]), evaluatePolicy_cons, hm]
      simp

theorem pendingInv_empty : PendingInv emptyApprovalState := by
  constructor
  · intro id
    simp [emptyApprovalState]
  · intro id r h
    simp [emptyApprovalState] at h

theorem pendingInv_request (s : ApprovalState) (id : String) (now : Int)
    (tool inp session requester : String) (h : PendingInv s) :
    PendingInv (ApprovalStore.requestApproval s id now tool inp session requester).1 := by
  obtain ⟨h1, h2⟩ := h
  constructor
  · intro k
    by_cases hk : k = id
    · subst hk
      simp [ApprovalStore.requestApproval]
    · simp only [ApprovalStore.requestApproval, List.mem_append,
        List.mem_singleton, hk, or_false, if_neg hk]
      exact h1 k
  · intro k r hk
    simp only [ApprovalStore.requestApproval] at hk
    by_cases hke : k = id
    · subst hke
      rw [if_pos rfl] at hk
      cases hk
      rfl
    · rw [if_neg hke] at hk
      exact h2 k r hk

/-- decide on a missing record is the identity. -/
theorem decide_eq_of_none (s : ApprovalState) (id : String) (d : Decision)
    (h : s.records id = none) : ApprovalStore.decide s id d = s := by
  simp only [ApprovalStore.decide, h]

/-- decide on a record outside pending is the identity. -/
theorem decide_eq_of_nonpending (s : ApprovalState) (id : String)
    (d : Decision) (req : ApprovalRequest) (h : s.records id = some req)
    (hst : req.status ≠ ApprovalStatus.pending) :
    ApprovalStore.decide s id d = s := by
  simp only [ApprovalStore.decide, h]
  rw [if_pos (by simp [hst])]

/-- decide on a pending record stores the decided status and filters
the id out of the pending index. -/
theorem decide_eq_of_pending (s : ApprovalState) (id : String)
    (d : Decision) (req : ApprovalRequest) (h : s.records id = some req)
    (hst : req.status = ApprovalStatus.pending) :
    ApprovalStore.decide s id d =
      { records := fun k =>
          if k = id then some { req with status := d.toStatus }
          else s.records k,
        pendingIndex := s.pendingIndex.filter (fun i => i != id) } := by
  simp only [ApprovalStore.decide, h]
  rw [if_neg (by simp [hst])]

theorem pendingInv_decide (s : ApprovalState) (id : String) (d : Decision)
    (h : PendingInv s) : PendingInv (ApprovalStore.decide s id d) := by
  obtain ⟨h1, h2⟩ := h
  rcases hrec : s.records id with _ | req
  · rw [decide_eq_of_none s id d hrec]
    exact ⟨h1, h2⟩
  · by_cases hst : req.status = ApprovalStatus.pending
    · rw [decide_eq_of_pending s id d req hrec hst]
      constructor
      · intro k
        by_cases hk : k = id
        · subst hk
          simp only [List.mem_filter, bne_iff_ne, ne_eq, not_true_eq_false,
            and_false, false_iff, if_pos rfl]
          rintro ⟨r, hr, hrs⟩
          injection hr with hr
          subst hr
          cases d <;> simp [Decision.toStatus] at hrs
        · simp only [List.mem_filter, bne_iff_ne, ne_eq, hk,
            not_false_eq_true, and_true, if_neg hk]
          exact h1 k
      · intro k r hk
        dsimp only at hk
        by_cases hke : k = id
        · subst hke
          rw [if_pos rfl] at hk
          injection hk with hk
          subst hk
          exact h2 _ req hrec
        · rw [if_neg hke] at hk
          exact h2 k r hk
    · rw [decide_eq_of_nonpending s id d req hrec hst]
      exact ⟨h1, h2⟩

theorem contains_eq_mem (l : List String) (a : String) :
    l.contains a = true ↔ a ∈ l := by
  simp [List.contains]

/-- The sweep's effect on an existing record: expired exactly when the
id is indexed, the record pending, and old enough; untouched otherwise. -/
theorem expire_records_of_some (s : ApprovalState) (maxAgeMs now : Int)
    (id : String) (r : ApprovalRequest) (hrec : s.records id = some r) :
    (ApprovalStore.expireOlderThan s maxAgeMs now).records id =
      (if id ∈ s.pendingIndex ∧ r.status = ApprovalStatus.pending ∧
          maxAgeMs ≤ now - r.createdAt
       then some { r with status := ApprovalStatus.expired }
       else some r) := by
  simp only [ApprovalStore.expireOlderThan, shouldExpire, hrec]
  by_cases hmem : id ∈ s.pendingIndex <;>
    by_cases hst : r.status = ApprovalStatus.pending <;>
      by_cases hage : maxAgeMs ≤ now - r.createdAt <;>
        simp [List.contains, hmem, hst, hage]

/-- The sweep never creates a record. -/
theorem expire_records_of_none (s : ApprovalState) (maxAgeMs now : Int)
    (id : String) (hrec : s.records id = none) :
    (ApprovalStore.expireOlderThan s maxAgeMs now).records id = none := by
  simp [ApprovalStore.expireOlderThan, shouldExpire, hrec]

/-- The sweep's effect on the pending index: an id survives exactly
when it was there and is not pending-and-old-enough. -/
theorem expire_mem_iff (s : ApprovalState) (maxAgeMs now : Int) (id : String) :
    id ∈ (ApprovalStore.expireOlderThan s maxAgeMs now).pendingIndex ↔
      (id ∈ s.pendingIndex ∧
        ¬ ∃ r, s.records id = some r ∧ r.status = ApprovalStatus.pending ∧
          maxAgeMs ≤ now - r.createdAt) := by
  simp only [ApprovalStore.expireOlderThan, List.mem_filter,
    Bool.not_eq_true']
  rcases hrec : s.records id with _ | r
  · simp [shouldExpire, hrec]
  · by_cases hst : r.status = ApprovalStatus.pending <;>
      by_cases hage : maxAgeMs ≤ now - r.createdAt <;>
        simp [shouldExpire, hrec, hst, hage]

theorem pendingInv_expire (s : ApprovalState) (maxAgeMs now : Int)
    (h : PendingInv s) : PendingInv (ApprovalStore.expireOlderThan s maxAgeMs now) := by
  obtain ⟨h1, h2⟩ := h
  constructor
  · intro k
    constructor
    · intro hk
      rw [expire_mem_iff] at hk
      obtain ⟨hmem, hnot⟩ := hk
      obtain ⟨r, hr, hrs⟩ := (h1 k).1 hmem
      refine ⟨r, ?_, hrs⟩
      rw [expire_records_of_some s maxAgeMs now k r hr, if_neg]
      rintro ⟨_, _, hage⟩
      exact hnot ⟨r, hr, hrs, hage⟩
    · rintro ⟨r, hr, hrs⟩
      rcases hrec : s.records k with _ | req
      · rw [expire_records_of_none s maxAgeMs now k hrec] at hr
        cases hr
      · rw [expire_records_of_some s maxAgeMs now k req hrec] at hr
        by_cases hcond : k ∈ s.pendingIndex ∧
            req.status = ApprovalStatus.pending ∧ maxAgeMs ≤ now - req.createdAt
        · rw [if_pos hcond] at hr
          injection hr with hr
          subst hr
          simp at hrs
        · rw [if_neg hcond] at hr
          injection hr with hr
          subst hr
          have hmem : k ∈ s.pendingIndex := (h1 k).2 ⟨req, hrec, hrs⟩
          rw [expire_mem_iff]
          refine ⟨hmem, ?_⟩
          rintro ⟨r2, hr2, hrs2, hage2⟩
          rw [hrec] at hr2
          injection hr2 with hr2
          subst hr2
          exact hcond ⟨hmem, hrs2, hage2⟩
  · intro k r hk
    rcases hrec : s.records k with _ | req
    · rw [expire_records_of_none s maxAgeMs now k hrec] at hk
      cases hk
    · rw [expire_records_of_some s maxAgeMs now k req hrec] at hk
      have hid := h2 k req hrec
      by_cases hcond : k ∈ s.pendingIndex ∧
          req.status = ApprovalStatus.pending ∧ maxAgeMs ≤ now - req.createdAt
      · rw [if_pos hcond] at hk
        injection hk with hk
        subst hk
        exact hid
      · rw [if_neg hcond] at hk
        injection hk with hk
        subst hk
        exact hid

theorem pendingInv_applyOp (s : ApprovalState) (op : ApprovalOp)
    (h : PendingInv s) : PendingInv (applyOp s op) := by
  cases op with
  | request id now tool inp session requester =>
      exact pendingInv_request s id now tool inp session requester h
  | decideOn id d => exact pendingInv_decide s id d h
  | expire maxAgeMs now => exact pendingInv_expire s maxAgeMs now h

theorem pendingInv_runOps (ops : List ApprovalOp) : PendingInv (runOps ops) := by
  suffices h : ∀ s, PendingInv s → PendingInv (ops.foldl applyOp s) from
    h emptyApprovalState pendingInv_empty
  induction ops with
  | nil => exact fun s hs => hs
  | cons op rest ih =>
      intro s hs
      exact ih (applyOp s op) (pendingInv_applyOp s op hs)

theorem listPending_mem_iff (s : ApprovalState) (h : PendingInv s)
    (r : ApprovalRequest) :
    r ∈ ApprovalStore.listPending s ↔
      (s.records r.id = some r ∧ r.status = .pending) := by
  simp only [ApprovalStore.listPending, List.mem_filterMap]
  constructor
  · rintro ⟨id, hid, hf⟩
    rcases hrec : s.records id with _ | req
    · simp only [hrec] at hf
      exact Option.noConfusion hf
    · simp only [hrec] at hf
      by_cases hst : req.status = ApprovalStatus.pending
      · rw [if_pos hst] at hf
        injection hf with hf
        subst hf
        have hrid := h.2 id req hrec
        subst hrid
        exact ⟨hrec, hst⟩
      · rw [if_neg hst] at hf
        cases hf
  · rintro ⟨hrec, hst⟩
    refine ⟨r.id, (h.1 r.id).2 ⟨r, hrec, hst⟩, ?_⟩
    simp only [hrec]
    rw [if_pos hst]

example :
    (ApprovalStore.get (runOps [.request "a1b2c3d4" 0 "Bash"
      "git push origin main" "claude-session-1" "claude-code"])
      "a1b2c3d4").map (fun r => r.status) = some .pending := by decide

example :
    (ApprovalStore.get (runOps [.request "a1b2c3d4" 0 "Bash" "npm test" "s1"
      "claude-code", .decideOn "a1b2c3d4" .allow])
      "a1b2c3d4").map (fun r => r.status) = some .allow := by decide

example :
    (ApprovalStore.get (runOps [.request "a1b2c3d4" 0 "Write" "/etc/hosts" "s1"
      "claude-code", .decideOn "a1b2c3d4" .deny])
      "a1b2c3d4").map (fun r => r.status) = some .deny := by decide

example :
    (ApprovalStore.listPending (runOps [.request "a1" 0 "A" "1" "s1" "x",
      .request "b2" 0 "B" "2" "s1" "x"])).length = 2 := by decide

example :
    ApprovalStore.listPending (runOps [.request "a1" 0 "A" "1" "s1" "x",
      .request "b2" 0 "B" "2" "s1" "x", .decideOn "a1" .allow]) =
      [{ id := "b2", tool := "B", input := "2", session := "s1",
         requester := "x", status := .pending, createdAt := 0 }] := by decide

example :
    (ApprovalStore.get (runOps [.request "a1b2c3d4" 0 "Bash" "test" "s1" "x",
      .expire 0 0]) "a1b2c3d4").map (fun r => r.status) = some .expired := by
  decide

/-- C5: after every finite sequence of requestApproval, decide and
expireOlderThan operations from the empty store, an id is in the
pending index exactly when its backing record's status is pending, and
listPending returns exactly the records whose status is pending
(dropping index entries whose backing record is missing or
non-pending). -/
theorem approval_pendingIndex_invariant (ops : List ApprovalOp) :
    (∀ id, id ∈ (runOps ops).pendingIndex ↔
      ∃ r, (runOps ops).records id = some r ∧
        r.status = ApprovalStatus.pending) ∧
    (∀ r, r ∈ ApprovalStore.listPending (runOps ops) ↔
      ((runOps ops).records r.id = some r ∧
        r.status = ApprovalStatus.pending)) :=
  ⟨(pendingInv_runOps ops).1,
   fun r => listPending_mem_iff (runOps ops) (pendingInv_runOps ops) r⟩

/-- C6: decide on a missing or non-pending record is a no-op that
leaves the whole store unchanged; on a pending record it stores the
decided status under the id, removes the id from the pending index and
leaves every other record untouched. -/
theorem decide_noop_or_transition (s : ApprovalState) (id : String)
    (d : Decision) :
    ((∀ r, s.records id = some r → r.status ≠ ApprovalStatus.pending) →
        ApprovalStore.decide s id d = s) ∧
    (∀ r, s.records id = some r → r.status = ApprovalStatus.pending →
        ApprovalStore.decide s id d =
          { records := fun k =>
              if k = id then some { r with status := d.toStatus }
              else s.records k,
            pendingIndex := s.pendingIndex.filter (fun i => i != id) }) := by
  constructor
  · intro hnp
    rcases hrec : s.records id with _ | req
    · exact decide_eq_of_none s id d hrec
    · exact decide_eq_of_nonpending s id d req hrec (hnp req hrec)
  · intro r hrec hst
    exact decide_eq_of_pending s id d r hrec hst

theorem decide_noop_or_transition_witness :
    ApprovalStore.decide emptyApprovalState "e3b0c442" Decision.allow =
      emptyApprovalState ∧
    ApprovalStore.decide
        (runOps [.request "a1b2c3d4" 5 "Bash" "git push origin main" "s1"
          "claude-code"]) "a1b2c3d4" Decision.deny =
      { records := fun k =>
          if k = "a1b2c3d4" then
            some { id := "a1b2c3d4", tool := "Bash",
                   input := "git push origin main", session := "s1",
                   requester := "claude-code",
                   status := Decision.deny.toStatus, createdAt := 5 }
          else (runOps [.request "a1b2c3d4" 5 "Bash" "git push origin main"
            "s1" "claude-code"]).records k,
        pendingIndex := (runOps [.request "a1b2c3d4" 5 "Bash"
          "git push origin main" "s1"
          "claude-code"]).pendingIndex.filter (fun i => i != "a1b2c3d4") } := by
  constructor
  · exact (decide_noop_or_transition emptyApprovalState "e3b0c442"
      Decision.allow).1 (fun r hr => Option.noConfusion hr)
  · exact (decide_noop_or_transition _ "a1b2c3d4" Decision.deny).2
      { id := "a1b2c3d4", tool := "Bash", input := "git push origin main",
        session := "s1", requester := "claude-code",
        status := ApprovalStatus.pending, createdAt := 5 }
      (by decide) rfl

/-- Records come only from requestApproval: an id never minted by any
request of the sequence backs no record — decide and the sweep never
create one. -/
theorem records_none_of_not_minted (ops : List ApprovalOp) :
    ∀ (s : ApprovalState) (k : String), s.records k = none →
      k ∉ mintedIds ops → (ops.foldl applyOp s).records k = none := by
  induction ops with
  | nil =>
    intro s k hnone _
    exact hnone
  | cons op rest ih =>
    intro s k hnone hmem
    rw [List.foldl_cons]
    cases op with
    | request id now tool inp session requester =>
      simp only [mintedIds, List.mem_cons, not_or] at hmem
      apply ih _ _ ?_ hmem.2
      simp only [applyOp, ApprovalStore.requestApproval]
      rw [if_neg hmem.1]
      exact hnone
    | decideOn id d =>
      apply ih _ _ ?_ (by simpa [mintedIds] using hmem)
      show (ApprovalStore.decide s id d).records k = none
      rcases hrec : s.records id with _ | req
      · rw [decide_eq_of_none s id d hrec]
        exact hnone
      · by_cases hst : req.status = ApprovalStatus.pending
        · rw [decide_eq_of_pending s id d req hrec hst]
          dsimp only
          rw [if_neg ?_]
          · exact hnone
          · intro hk
            rw [hk, hrec] at hnone
            exact Option.noConfusion hnone
        · rw [decide_eq_of_nonpending s id d req hrec hst]
          exact hnone
    | expire maxAgeMs now =>
      apply ih _ _ ?_ (by simpa [mintedIds] using hmem)
      exact expire_records_of_none s maxAgeMs now k hnone

/-- C7 counterexample: the code mints ids as randomUUID().slice(0, 8),
so uniqueness is only probabilistic; on a repeated truncated draw the
second requestApproval returns an id equal to the id returned by the
earlier call — a reused id — and silently overwrites the earlier
record. -/
theorem requestApproval_unique_counterexample :
    (ApprovalStore.requestApproval
        (ApprovalStore.requestApproval emptyApprovalState "a1b2c3d4" 5 "Bash"
          "x" "s1" "q").1
        "a1b2c3d4" 7 "Write" "y" "s2" "q2").2 =
      (ApprovalStore.requestApproval emptyApprovalState "a1b2c3d4" 5 "Bash"
        "x" "s1" "q").2 ∧
    (ApprovalStore.requestApproval
        (ApprovalStore.requestApproval emptyApprovalState "a1b2c3d4" 5 "Bash"
          "x" "s1" "q").1
        "a1b2c3d4" 7 "Write" "y" "s2" "q2").1.records "a1b2c3d4" =
      some { id := "a1b2c3d4", tool := "Write", input := "y", session := "s2",
             requester := "q2", status := .pending, createdAt := 7 } := by
  decide

/-- C7 amended: requestApproval returns the id minted by the randomUUID
oracle; provided the minted id differs from every id minted — and hence
returned — by an earlier call (randomUUID().slice(0, 8) guarantees this
only probabilistically), the id backs no existing record, so it has
never been used, and on return a record with that id is persisted with
status pending and the call's timestamp, the id has been appended to
the pending index, and no other record is touched; a colliding draw
would instead return a duplicate id and overwrite the earlier record. -/
theorem requestApproval_fresh_spec (ops : List ApprovalOp) (id : String)
    (now : Int) (tool inp session requester : String)
    (h : id ∉ mintedIds ops) :
    (ApprovalStore.requestApproval (runOps ops) id now tool inp session
      requester).2 = id ∧
    (runOps ops).records id = none ∧
    (ApprovalStore.requestApproval (runOps ops) id now tool inp session
        requester).1.records id =
      some { id := id, tool := tool, input := inp, session := session,
             requester := requester, status := .pending, createdAt := now } ∧
    id ∈ (ApprovalStore.requestApproval (runOps ops) id now tool inp session
      requester).1.pendingIndex ∧
    (∀ k, k ≠ id →
      (ApprovalStore.requestApproval (runOps ops) id now tool inp session
        requester).1.records k = (runOps ops).records k) ∧
    (ApprovalStore.requestApproval (runOps ops) id now tool inp session
        requester).1.pendingIndex = (runOps ops).pendingIndex ++ [id] := by
  refine ⟨rfl, ?_, ?_, ?_, ?_, rfl⟩
  · exact records_none_of_not_minted ops emptyApprovalState id rfl h
  · simp [ApprovalStore.requestApproval]
  · simp [ApprovalStore.requestApproval]
  · intro k hk
    simp [ApprovalStore.requestApproval, hk]

theorem requestApproval_fresh_spec_witness :
    (runOps [.request "a1b2c3d4" 5 "Bash" "x" "s1" "q"]).records "e3b0c442" =
      none ∧
    (ApprovalStore.requestApproval
        (runOps [.request "a1b2c3d4" 5 "Bash" "x" "s1" "q"]) "e3b0c442" 7
        "Write" "y" "s2" "q2").1.records "e3b0c442" =
      some { id := "e3b0c442", tool := "Write", input := "y", session := "s2",
             requester := "q2", status := .pending, createdAt := 7 } ∧
    (ApprovalStore.requestApproval
        (runOps [.request "a1b2c3d4" 5 "Bash" "x" "s1" "q"]) "e3b0c442" 7
        "Write" "y" "s2" "q2").1.records "a1b2c3d4" =
      (runOps [.request "a1b2c3d4" 5 "Bash" "x" "s1" "q"]).records
        "a1b2c3d4" := by
  have h := requestApproval_fresh_spec
    [.request "a1b2c3d4" 5 "Bash" "x" "s1" "q"] "e3b0c442" 7 "Write" "y" "s2"
    "q2" (by decide)
  exact ⟨h.2.1, h.2.2.1, h.2.2.2.2.1 "a1b2c3d4" (by decide)⟩

/-- C8: expireOlderThan marks as expired, and removes from the pending
index, exactly the indexed ids whose record exists, is pending, and
satisfies now - createdAt >= maxAgeMs, leaving every other record and
index entry unchanged; with maxAgeMs 0 every currently pending indexed
request (created no later than now) becomes expired and leaves the
index. -/
theorem expireOlderThan_sweep_spec (s : ApprovalState) (maxAgeMs now : Int) :
    (∀ id r, s.records id = some r →
      (ApprovalStore.expireOlderThan s maxAgeMs now).records id =
        (if id ∈ s.pendingIndex ∧ r.status = ApprovalStatus.pending ∧
            maxAgeMs ≤ now - r.createdAt
         then some { r with status := ApprovalStatus.expired }
         else some r)) ∧
    (∀ id, s.records id = none →
      (ApprovalStore.expireOlderThan s maxAgeMs now).records id = none) ∧
    (∀ id, id ∈ (ApprovalStore.expireOlderThan s maxAgeMs now).pendingIndex ↔
      (id ∈ s.pendingIndex ∧
        ¬ ∃ r, s.records id = some r ∧ r.status = ApprovalStatus.pending ∧
          maxAgeMs ≤ now - r.createdAt)) ∧
    (∀ id r, s.records id = some r → r.status = ApprovalStatus.pending →
      id ∈ s.pendingIndex → r.createdAt ≤ now →
      ((ApprovalStore.expireOlderThan s 0 now).records id =
          some { r with status := ApprovalStatus.expired } ∧
        id ∉ (ApprovalStore.expireOlderThan s 0 now).pendingIndex)) := by
  refine ⟨?_, ?_, ?_, ?_⟩
  · intro id r hrec
    exact expire_records_of_some s maxAgeMs now id r hrec
  · intro id hrec
    exact expire_records_of_none s maxAgeMs now id hrec
  · intro id
    exact expire_mem_iff s maxAgeMs now id
  · intro id r hrec hst hmem hage
    constructor
    · rw [expire_records_of_some s 0 now id r hrec,
        if_pos ⟨hmem, hst, by omega⟩]
    · rw [expire_mem_iff]
      rintro ⟨_, hnot⟩
      exact hnot ⟨r, hrec, hst, by omega⟩

theorem expireOlderThan_sweep_spec_witness :
    (ApprovalStore.expireOlderThan
        (runOps [.request "a1b2c3d4" 5 "Bash" "x" "s1" "q"]) 0 9).records
        "a1b2c3d4" =
      some { id := "a1b2c3d4", tool := "Bash", input := "x", session := "s1",
             requester := "q", status := ApprovalStatus.expired,
             createdAt := 5 } ∧
    "a1b2c3d4" ∉ (ApprovalStore.expireOlderThan
      (runOps [.request "a1b2c3d4" 5 "Bash" "x" "s1" "q"]) 0 9).pendingIndex :=
  (expireOlderThan_sweep_spec
      (runOps [.request "a1b2c3d4" 5 "Bash" "x" "s1" "q"]) 0 9).2.2.2
    "a1b2c3d4"
    { id := "a1b2c3d4", tool := "Bash", input := "x", session := "s1",
      requester := "q", status := ApprovalStatus.pending, createdAt := 5 }
    (by decide) rfl (by decide) (by decide)

/-- C9: the approval HTTP surface — create responds with the minted id
and performs requestApproval; lookup of a known id responds with the
record's fields and of an unknown id with the not-found condition,
which is distinct from every record response (a valid pending status in
particular); decide submits the decision to the store. -/
theorem approval_http_surface (s : ApprovalState)
    (tool inp session requester id : String) (now : Int) (qid : String)
    (d : Decision) :
    (handleApproval s (.createApproval tool inp session requester id now) =
      ((ApprovalStore.requestApproval s id now tool inp session requester).1,
        .created (ApprovalStore.requestApproval s id now tool inp session
          requester).2)) ∧
    (s.records qid = none →
      handleApproval s (.getApproval qid) = (s, .notFound)) ∧
    (∀ r, s.records qid = some r →
      handleApproval s (.getApproval qid) =
        (s, .found r.id r.status r.tool r.input r.session r.requester
          r.createdAt)) ∧
    (∀ st t2 i2 s2 r2 c2,
      ApprovalHttpResponse.notFound ≠ .found qid st t2 i2 s2 r2 c2) ∧
    (handleApproval s (.decideApproval qid d) =
      (ApprovalStore.decide s qid d, .ack)) := by
  refine ⟨rfl, ?_, ?_, ?_, rfl⟩
  · intro h
    simp [handleApproval, ApprovalStore.get, h]
  · intro r h
    simp [handleApproval, ApprovalStore.get, h]
  · intro st t2 i2 s2 r2 c2 h
    exact ApprovalHttpResponse.noConfusion h

theorem approval_http_surface_witness :
    handleApproval (runOps [.request "a1b2c3d4" 5 "Bash" "x" "s1" "q"])
        (.getApproval "a1b2c3d4") =
      (runOps [.request "a1b2c3d4" 5 "Bash" "x" "s1" "q"],
        .found "a1b2c3d4" .pending "Bash" "x" "s1" "q" 5) ∧
    handleApproval emptyApprovalState (.getApproval "e3b0c442") =
      (emptyApprovalState, .notFound) := by
  constructor
  · exact (approval_http_surface
      (runOps [.request "a1b2c3d4" 5 "Bash" "x" "s1" "q"]) "Bash" "x" "s1" "q"
      "a1b2c3d4" 5 "a1b2c3d4" Decision.allow).2.2.1
      { id := "a1b2c3d4", tool := "Bash", input := "x", session := "s1",
        requester := "q", status := ApprovalStatus.pending, createdAt := 5 }
      (by decide)
  · exact (approval_http_surface emptyApprovalState "t" "i" "s" "r" "x" 0
      "e3b0c442" Decision.allow).2.1 rfl

end NixClaw
